import Mathlib

/-!
Verification of the zerooraclaw memory subsystem.

This file gives a shallow embedding of the two cores of the repository:

* `ResponseCache` (`src/memory/response_cache.rs`): an in-memory response
  cache with TTL expiry and LRU eviction, plus the SHA-256 based
  `cache_key` fingerprint.  The cache's `HashMap<String, CacheEntry>` is
  modelled as an association list with pairwise-distinct keys; wall-clock
  instants (`chrono::DateTime<Local>`) are modelled as integers, with the
  TTL expressed in the same unit, so `cutoff = now - ttl`.
* `OracleMemory` (`src/oracle/memory.rs` together with
  `src/oracle/vector.rs`): the Oracle-backed `Memory` implementation.  The
  `ZERO_MEMORIES` table is modelled as a list of rows and each SQL
  statement the code issues (MERGE upsert, vector search, keyword `LIKE`
  fallback, point lookup) is given its standard semantics over that list.
  The embedding provider and Oracle's `VECTOR_DISTANCE` are external
  collaborators and enter as explicit parameters (an `Except` outcome and
  a distance function); `f64` scores are modelled as rationals, and SQL
  `LOWER` as ASCII lowercasing (matching `str::to_ascii_lowercase` used by
  the Rust side of the category parser).
-/

namespace ZeroOraClaw

/-! ## SHA-256 over byte lists

A plain executable model of SHA-256 (FIPS 180-4), used by
`ResponseCache::cache_key`, which computes
`format!("{:064x}", Sha256(model | system_prompt? | user_prompt))`.
Bytes are `Nat` values below 256 and words are `Nat` values below 2^32,
with all word arithmetic taken modulo 2^32. -/

namespace Sha256

/-- Right rotation of a 32-bit word. -/
def rotr (n x : Nat) : Nat := ((x >>> n) ||| (x <<< (32 - n))) % 4294967296

/-- The Σ0 function of the compression rounds. -/
def bigSigma0 (x : Nat) : Nat := (rotr 2 x) ^^^ (rotr 13 x) ^^^ (rotr 22 x)

/-- The Σ1 function of the compression rounds. -/
def bigSigma1 (x : Nat) : Nat := (rotr 6 x) ^^^ (rotr 11 x) ^^^ (rotr 25 x)

/-- The σ0 function of the message schedule. -/
def smallSigma0 (x : Nat) : Nat := (rotr 7 x) ^^^ (rotr 18 x) ^^^ (x >>> 3)

/-- The σ1 function of the message schedule. -/
def smallSigma1 (x : Nat) : Nat := (rotr 17 x) ^^^ (rotr 19 x) ^^^ (x >>> 10)

/-- The choice function; `x ^^^ 4294967295` is bitwise complement on 32 bits. -/
def ch (x y z : Nat) : Nat := (x &&& y) ^^^ ((x ^^^ 4294967295) &&& z)

/-- The majority function. -/
def maj (x y z : Nat) : Nat := (x &&& y) ^^^ (x &&& z) ^^^ (y &&& z)

/-- The 64 round constants (FIPS 180-4 section 4.2.2, written in
decimal). -/
def K : List Nat :=
  [1116352408, 1899447441, 3049323471, 3921009573, 961987163, 1508970993,
   2453635748, 2870763221, 3624381080, 310598401, 607225278, 1426881987,
   1925078388, 2162078206, 2614888103, 3248222580, 3835390401, 4022224774,
   264347078, 604807628, 770255983, 1249150122, 1555081692, 1996064986,
   2554220882, 2821834349, 2952996808, 3210313671, 3336571891, 3584528711,
   113926993, 338241895, 666307205, 773529912, 1294757372, 1396182291,
   1695183700, 1986661051, 2177026350, 2456956037, 2730485921, 2820302411,
   3259730800, 3345764771, 3516065817, 3600352804, 4094571909, 275423344,
   430227734, 506948616, 659060556, 883997877, 958139571, 1322822218,
   1537002063, 1747873779, 1955562222, 2024104815, 2227730452, 2361852424,
   2428436474, 2756734187, 3204031479, 3329325298]

/-- The initial hash value (FIPS 180-4 section 5.3.3, in decimal). -/
def H0 : List Nat :=
  [1779033703, 3144134277, 1013904242, 2773480762,
   1359893119, 2600822924, 528734635, 1541459225]

/-- Group a byte list into big-endian 32-bit words. -/
def toWords : List Nat → List Nat
  | b0 :: b1 :: b2 :: b3 :: rest => (((b0 * 256 + b1) * 256 + b2) * 256 + b3) :: toWords rest
  | _ => []

/-- One message-schedule extension step: append word `t`. -/
def scheduleStep (w : Array Nat) (t : Nat) : Array Nat :=
  w.push ((smallSigma1 (w.getD (t - 2) 0) + w.getD (t - 7) 0 +
           smallSigma0 (w.getD (t - 15) 0) + w.getD (t - 16) 0) % 4294967296)

/-- Extend the 16 block words to the 64 schedule words. -/
def buildSchedule (w0 : Array Nat) : Array Nat :=
  (List.range 48).foldl (fun w i => scheduleStep w (i + 16)) w0

/-- One compression round on the 8-word working state. -/
def roundFn (st : List Nat) (k w : Nat) : List Nat :=
  match st with
  | [a, b, c, d, e, f, g, hh] =>
    let t1 := (hh + bigSigma1 e + ch e f g + k + w) % 4294967296
    let t2 := (bigSigma0 a + maj a b c) % 4294967296
    [(t1 + t2) % 4294967296, a, b, c, (d + t1) % 4294967296, e, f, g]
  | other => other

/-- Compress one 64-byte block into the running hash. -/
def compressBlock (h0 : List Nat) (block : List Nat) : List Nat :=
  let w := buildSchedule (toWords block).toArray
  let st := (List.range 64).foldl (fun st t => roundFn st (K.getD t 0) (w.getD t 0)) h0
  List.zipWith (fun x y => (x + y) % 4294967296) h0 st

/-- The 8-byte big-endian encoding of the message bit length. -/
def lenBytes (n : Nat) : List Nat :=
  [(n >>> 56) % 256, (n >>> 48) % 256, (n >>> 40) % 256, (n >>> 32) % 256,
   (n >>> 24) % 256, (n >>> 16) % 256, (n >>> 8) % 256, n % 256]

/-- FIPS 180-4 padding: `0x80`, zeros, then the 64-bit bit length. -/
def padMessage (msg : List Nat) : List Nat :=
  msg ++ [128] ++ List.replicate ((119 - (msg.length % 64)) % 64) 0 ++ lenBytes (8 * msg.length)

/-- Split a padded message into 64-byte blocks. -/
def chunkBlocks : List Nat → List (List Nat)
  | [] => []
  | x :: rest => ((x :: rest).take 64) :: chunkBlocks ((x :: rest).drop 64)
termination_by l => l.length
decreasing_by
  simp only [List.length_drop]
  simp
  omega

/-- The big-endian bytes of a 32-bit word. -/
def wordBytes (w : Nat) : List Nat :=
  [(w >>> 24) % 256, (w >>> 16) % 256, (w >>> 8) % 256, w % 256]

/-- SHA-256 digest (32 bytes) of a byte list. -/
def hashBytes (msg : List Nat) : List Nat :=
  ((chunkBlocks (padMessage msg)).foldl compressBlock H0).foldr
    (fun w acc => wordBytes w ++ acc) []

/-- Lowercase hexadecimal digit. -/
def hexChar (n : Nat) : Char := if n < 10 then Char.ofNat (48 + n) else Char.ofNat (87 + n)

/-- Two lowercase hexadecimal digits of a byte. -/
def byteHex (b : Nat) : List Char := [hexChar (b / 16), hexChar (b % 16)]

/-- Lowercase hexadecimal string of a byte list; on a 32-byte digest this is
the 64-character output of Rust's zero-padded hex formatting. -/
def hexOfBytes (bs : List Nat) : String := String.mk (bs.flatMap byteHex)

end Sha256

/-! ## UTF-8 bytes of a string

Rust's `str::as_bytes` yields the UTF-8 encoding; this is its model, used
to describe the byte stream fed to the hasher by `cache_key`. -/

/-- UTF-8 encoding of one scalar value, as bytes. -/
def utf8EncodeCharNat (c : Char) : List Nat :=
  let n := c.toNat
  if n < 128 then [n]
  else if n < 2048 then [192 + n / 64, 128 + n % 64]
  else if n < 65536 then [224 + n / 4096, 128 + (n / 64) % 64, 128 + n % 64]
  else [240 + n / 262144, 128 + (n / 4096) % 64, 128 + (n / 64) % 64, 128 + n % 64]

/-- UTF-8 bytes of a string. -/
def utf8Bytes (s : String) : List Nat := s.data.flatMap utf8EncodeCharNat

/-! ## Sorting

SQL `ORDER BY` is modelled as a sorted permutation produced by insertion
sort (stability/tie order is not guaranteed by `ORDER BY` and no claim
depends on it). -/

/-- Insert into a sorted list, keeping it sorted w.r.t. `le`. -/
def insertSorted {α : Type} (le : α → α → Bool) (a : α) : List α → List α
  | [] => [a]
  | x :: rest => if le a x then a :: x :: rest else x :: insertSorted le a rest

/-- Insertion sort by `le`. -/
def sortBy {α : Type} (le : α → α → Bool) : List α → List α
  | [] => []
  | x :: rest => insertSorted le x (sortBy le rest)

/-! ## ResponseCache (`src/memory/response_cache.rs`) -/

/-- A single cached response entry (`CacheEntry`). -/
structure CacheEntry where
  model : String
  response : String
  token_count : Nat
  created_at : Int
  accessed_at : Int
  hit_count : Nat
  deriving DecidableEq, Repr

/-- The response cache.  The Rust `HashMap<String, CacheEntry>` is an
association list whose keys are pairwise distinct; `ttl_minutes` is the
`i64::from(u32)` TTL (hence non-negative, kept as `Nat`). -/
structure ResponseCache where
  entries : List (String × CacheEntry)
  ttl_minutes : Nat
  max_entries : Nat
  deriving DecidableEq, Repr

namespace ResponseCache

/-- The bytes the optional system prompt contributes between the two
separators: its own bytes when present, nothing when absent. -/
def sysPromptStr : Option String → String
  | some s => s
  | none => ""

/-- The byte stream hashed by `cache_key`, written as the string
`model | system_prompt-or-nothing | user_prompt`.  The Rust code feeds the
hasher `model`, `"|"`, the system prompt bytes when present (nothing when
absent), `"|"`, then `user_prompt`; since hashing a byte stream piecewise
equals hashing its concatenation, this string's UTF-8 bytes are exactly
the hasher input. -/
def cacheKeyMessage (model : String) ( system_prompt : Option String)
    (user_prompt : String) : String :=
  model ++ "|" ++ sysPromptStr system_prompt ++ "|" ++ user_prompt

/-- `ResponseCache::cache_key`: the 64-hex-digit SHA-256 digest of the
message above. -/
def cache_key (model : String) ( system_prompt : Option String)
    (user_prompt : String) : String :=
  Sha256.hexOfBytes (Sha256.hashBytes (utf8Bytes (cacheKeyMessage model system_prompt user_prompt)))

/-- `ResponseCache::get`: miss on absent or expired key (the expired entry
is removed), hit bumps `hit_count` and `accessed_at` and returns a copy of
the response.  Returns the result together with the new cache state. -/
def get (c : ResponseCache) (now : Int) (key : String) :
    Option String × ResponseCache :=
  let cutoff : Int := now - (c.ttl_minutes : Int)
  match c.entries.find? (fun p => p.1 = key) with
  | some p =>
    if cutoff < p.2.created_at then
      (some p.2.response,
       { c with entries := c.entries.map (fun q =>
           if q.1 = key then
             (q.1, { q.2 with hit_count := q.2.hit_count + 1, accessed_at := now })
           else q) })
    else
      (none, { c with entries := c.entries.filter (fun q => ¬ q.1 = key) })
  | none => (none, c)

/-- First entry with minimal `accessed_at` (the Rust `min_by_key`, which
returns the first minimum in iteration order). -/
def findMinAccessed : List (String × CacheEntry) → Option (String × CacheEntry)
  | [] => none
  | p :: rest =>
    match findMinAccessed rest with
    | none => some p
    | some q => if p.2.accessed_at ≤ q.2.accessed_at then some p else some q

theorem findMinAccessed_eq_none {es : List (String × CacheEntry)}
    (h : findMinAccessed es = none) : es = [] := by
  cases es with
  | nil => rfl
  | cons q rest =>
    exfalso
    cases hr : findMinAccessed rest with
    | none =>
      simp only [findMinAccessed, hr] at h
      exact Option.noConfusion h
    | some m =>
      simp only [findMinAccessed, hr] at h
      by_cases hle : q.2.accessed_at ≤ m.2.accessed_at
      · rw [if_pos hle] at h
        cases h
      · rw [if_neg hle] at h
        cases h

theorem findMinAccessed_mem {es : List (String × CacheEntry)} :
    ∀ {p : String × CacheEntry}, findMinAccessed es = some p → p ∈ es := by
  induction es with
  | nil => intro p h; simp [findMinAccessed] at h
  | cons q rest ih =>
    intro p h
    cases hr : findMinAccessed rest with
    | none =>
      simp only [findMinAccessed, hr] at h
      cases h
      exact List.mem_cons_self _ _
    | some m =>
      simp only [findMinAccessed, hr] at h
      by_cases hle : q.2.accessed_at ≤ m.2.accessed_at
      · rw [if_pos hle] at h
        cases h
        exact List.mem_cons_self _ _
      · rw [if_neg hle] at h
        cases h
        exact List.mem_cons_of_mem _ (ih hr)

theorem findMinAccessed_le {es : List (String × CacheEntry)} :
    ∀ {p : String × CacheEntry}, findMinAccessed es = some p →
      ∀ q ∈ es, p.2.accessed_at ≤ q.2.accessed_at := by
  induction es with
  | nil => intro p h; simp [findMinAccessed] at h
  | cons q rest ih =>
    intro p h r hr
    cases hfm : findMinAccessed rest with
    | none =>
      simp only [findMinAccessed, hfm] at h
      cases h
      rcases List.mem_cons.mp hr with h1 | h1
      · exact h1 ▸ le_refl _
      · rw [findMinAccessed_eq_none hfm] at h1
        simp at h1
    | some m =>
      simp only [findMinAccessed, hfm] at h
      by_cases hle : q.2.accessed_at ≤ m.2.accessed_at
      · rw [if_pos hle] at h
        cases h
        rcases List.mem_cons.mp hr with h1 | h1
        · exact h1 ▸ le_refl _
        · exact le_trans hle (ih hfm r h1)
      · rw [if_neg hle] at h
        cases h
        rcases List.mem_cons.mp hr with h1 | h1
        · exact h1 ▸ le_of_not_le hle
        · exact ih hfm r h1

/-- The LRU eviction loop of `put`: while the map holds more than
`maxEntries` entries, remove the entry with the oldest `accessed_at`. -/
def evictLRU (maxEntries : Nat) (es : List (String × CacheEntry)) :
    List (String × CacheEntry) :=
  if es.length ≤ maxEntries then es
  else
    match h : findMinAccessed es with
    | none => es
    | some p => evictLRU maxEntries (es.eraseP (fun q => q.1 = p.1))
termination_by es.length
decreasing_by
  have hmem := findMinAccessed_mem h
  have hpred : (fun q => decide (q.1 = p.1)) p = true := by
    simp only [decide_eq_true_eq]
  have hlen := @List.length_eraseP_of_mem _ es p (fun q => decide (q.1 = p.1)) hmem hpred
  have hpos : 0 < es.length := List.length_pos_of_mem hmem
  omega

/-- The entry list during `put` after the insert-or-replace and the expiry
sweep (`entries.retain(created_at > cutoff)`), before LRU eviction. -/
def putPending (c : ResponseCache) (now : Int) (key model response : String)
    (token_count : Nat) : List (String × CacheEntry) :=
  ((key, ⟨model, response, token_count, now, now, 0⟩) ::
    c.entries.filter (fun q => ¬ q.1 = key)).filter
      (fun q => now - (c.ttl_minutes : Int) < q.2.created_at)

/-- `ResponseCache::put`: insert or replace, then sweep expired entries,
then evict LRU entries down to `max_entries`. -/
def put (c : ResponseCache) (now : Int) (key model response : String)
    (token_count : Nat) : ResponseCache :=
  { c with entries := evictLRU c.max_entries (putPending c now key model response token_count) }

/-- `ResponseCache::stats`: `(entry_count, total_hits, total_tokens_saved)`
summed over every resident entry, with no reference to the TTL. -/
def stats (c : ResponseCache) : Nat × Nat × Nat :=
  (c.entries.length,
   (c.entries.map (fun p => p.2.hit_count)).sum,
   (c.entries.map (fun p => p.2.token_count * p.2.hit_count)).sum)

/-- `ResponseCache::clear`: wipe everything, returning the prior count. -/
def clear (c : ResponseCache) : Nat × ResponseCache :=
  (c.entries.length, { c with entries := [] })

end ResponseCache

/-! ## OracleMemory (`src/oracle/memory.rs`) -/

/-- Memory category, from `crate::memory::traits` (declared by
`src/memory/mod.rs`; the trait module itself is not under `src/`).  The
spec fixes the closed set `Core`, `Daily`, `Conversation` plus the
`Custom(label)` escape hatch. -/
inductive MemoryCategory where
  | core
  | daily
  | conversation
  | custom (label : String)
  deriving DecidableEq, Repr

/-- Modelled from the spec: the `to_string` form of `MemoryCategory` that
`store` writes into the `category` column (`crate::memory::traits` is not
under `src/`).  The closed variants render as the lowercase names that
`parse_category` and its unit tests read back, and `Custom(label)` renders
as its label verbatim, per the spec's design note that unrecognized labels
should "round-trip losslessly instead of being rejected or silently
coerced". -/
def MemoryCategory.toStr : MemoryCategory → String
  | .core => "core"
  | .daily => "daily"
  | .conversation => "conversation"
  | .custom label => label

/-- Rust `to_ascii_lowercase` on one character (also used as the model of
SQL `LOWER` in the keyword search). -/
def asciiLowerChar (c : Char) : Char :=
  if 65 ≤ c.toNat ∧ c.toNat ≤ 90 then Char.ofNat (c.toNat + 32) else c

/-- Rust `str::to_ascii_lowercase`. -/
def asciiLower (s : String) : String := String.mk (s.data.map asciiLowerChar)

/-- `parse_category` (`src/oracle/memory.rs`): match on the ASCII-lowercased
string, falling back to `Custom` holding the lowercased string. -/
def parse_category (s : String) : MemoryCategory :=
  let l := asciiLower s
  if l = "core" then .core
  else if l = "daily" then .daily
  else if l = "conversation" then .conversation
  else .custom l

/-- One row of the `ZERO_MEMORIES` table (`src/oracle/schema.rs`).
Timestamps are instants modelled as integers; the `VECTOR(384, FLOAT32)`
column is an optional rational vector (`NULL` = `none`). -/
structure MemRow where
  memory_id : String
  agent_id : String
  key : String
  content : String
  category : String
  session_id : Option String
  embedding : Option (List ℚ)
  created_at : Int
  updated_at : Int
  access_count : Nat
  deriving DecidableEq, Repr

/-- `MemoryEntry` as surfaced by the Rust `row_to_entry` helper.  The
`timestamp` field is the formatted `created_at` instant; since the claims
never inspect its text, it is modelled as the instant itself. -/
structure MemoryEntry where
  id : String
  key : String
  content : String
  category : MemoryCategory
  timestamp : Int
  session_id : Option String
  score : Option ℚ
  deriving DecidableEq, Repr

/-- `row_to_entry` (`src/oracle/memory.rs`): map a query row to a
`MemoryEntry` with no score. -/
def rowToEntry (r : MemRow) : MemoryEntry :=
  { id := r.memory_id, key := r.key, content := r.content,
    category := parse_category r.category, timestamp := r.created_at,
    session_id := r.session_id, score := none }

namespace OracleMemory

/-- The `ON (m.key = src.key AND m.agent_id = src.agent_id)` match
condition of the MERGE, also the WHERE clause of the point lookup. -/
def rowMatchesKey (agent key : String) (r : MemRow) : Bool :=
  r.key = key && r.agent_id = agent

/-- `OracleMemory::store`: ask the embedder for a vector (a failure
degrades to `none` and is not an error), then MERGE into `ZERO_MEMORIES`
on `(key, agent_id)`.  A matched row keeps its `memory_id` and
`created_at` and is updated in place (the no-vector MERGE leaves the old
`embedding` column untouched); an unmatched key inserts a fresh row with
the given `memory_id` (the generated UUID).  The external DB calls are
assumed to succeed; `store` then always returns `Ok`, and the function
returns the new table state. -/
def store (agent : String) (embedOutcome : Except String (List ℚ))
    (memory_id key content : String) (category : MemoryCategory)
    (session_id : Option String) (now : Int) (db : List MemRow) : List MemRow :=
  let cat_str := category.toStr
  let embedding : Option (List ℚ) :=
    match embedOutcome with
    | .ok v => some v
    | .error _ => none
  if db.any (rowMatchesKey agent key) then
    db.map (fun r =>
      if rowMatchesKey agent key r then
        { r with
            content := content, category := cat_str, session_id := session_id,
            embedding := match embedding with | some v => some v | none => r.embedding,
            updated_at := now }
      else r)
  else
    db ++ [{ memory_id := memory_id, agent_id := agent, key := key,
             content := content, category := cat_str, session_id := session_id,
             embedding := embedding, created_at := now, updated_at := now,
             access_count := 0 }]

/-- `similarity_from_distance` (`src/oracle/vector.rs`):
`max(1.0 - distance, 0.0)`, with `f64` modelled as `ℚ`. -/
def similarity_from_distance (distance : ℚ) : ℚ := max (1 - distance) 0

/-- `MIN_SIMILARITY` (`src/oracle/memory.rs`). -/
def MIN_SIMILARITY : ℚ := 3 / 10

/-- The optional `AND session_id = :sid` filter of both recall queries. -/
def sessionMatches (session_id : Option String) (r : MemRow) : Bool :=
  match session_id with
  | some sid => r.session_id = some sid
  | none => true

/-- The vector path of `recall`: rows of this agent with a non-NULL
embedding (and matching session when given), ordered by
`VECTOR_DISTANCE(embedding, query_vec, COSINE)` ascending, first `limit`
rows; each row is kept only when `similarity_from_distance` reaches
`MIN_SIMILARITY` and is returned with that similarity as its score.
`vdist` is Oracle's distance function, an external collaborator. -/
def vectorSearch (vdist : List ℚ → List ℚ → ℚ) (agent : String) (qvec : List ℚ)
    (limit : Nat) (session_id : Option String) (db : List MemRow) :
    List MemoryEntry :=
  let candidates := db.filter (fun r =>
    r.agent_id = agent && r.embedding.isSome && sessionMatches session_id r)
  let sorted := sortBy (fun a b =>
    vdist (a.embedding.getD []) qvec ≤ vdist (b.embedding.getD []) qvec) candidates
  (sorted.take limit).filterMap (fun r =>
    let similarity := similarity_from_distance (vdist (r.embedding.getD []) qvec)
    if similarity < MIN_SIMILARITY then none
    else some { rowToEntry r with score := some similarity })

/-- SQL `LIKE` on character lists, fuel-based so that it is structurally
recursive: `%` matches any sequence, `_` any single character, anything
else itself (no ESCAPE clause is used by the code).  Each recursive call
shrinks `pattern.length + text.length`, so `likeMatches` below supplies
enough fuel for the exhaustion branch never to be taken. -/
def likeMatchesAux : Nat → List Char → List Char → Bool
  | _, [], t => t.isEmpty
  | 0, _ :: _, _ => false
  | fuel + 1, c :: ps, t =>
    if c = '%' then
      likeMatchesAux fuel ps t ||
        (match t with
         | [] => false
         | _ :: ts => likeMatchesAux fuel (c :: ps) ts)
    else
      match t with
      | [] => false
      | d :: ts => (if c = '_' then true else c = d) && likeMatchesAux fuel ps ts

/-- SQL `LIKE` of a pattern against a text. -/
def likeMatches (pattern text : List Char) : Bool :=
  likeMatchesAux (pattern.length + text.length) pattern text

/-- Lowercased character list of a string (SQL `LOWER`, ASCII fragment). -/
def lowerChars (s : String) : List Char := s.data.map asciiLowerChar

/-- The `LOWER(content) LIKE LOWER('%query%') OR LOWER(key) LIKE ...`
condition of the keyword fallback query. -/
def keywordMatch (query : String) (r : MemRow) : Bool :=
  let pat := lowerChars ("%" ++ query ++ "%")
  likeMatches pat (lowerChars r.content) || likeMatches pat (lowerChars r.key)

/-- The keyword fallback of `recall`: rows of this agent whose content or
key LIKE-matches `%query%` case-insensitively (and matching session when
given), most recently updated first, first `limit` rows, each scored with
the fixed nominal `0.5`. -/
def keywordSearch (agent query : String) (limit : Nat)
    (session_id : Option String) (db : List MemRow) : List MemoryEntry :=
  let matched := db.filter (fun r =>
    r.agent_id = agent && keywordMatch query r && sessionMatches session_id r)
  let sorted := sortBy (fun a b => b.updated_at ≤ a.updated_at) matched
  (sorted.take limit).map (fun r => { rowToEntry r with score := some (1 / 2) })

/-- `OracleMemory::recall`: try the query embedding (failure degrades to no
vector results), run the vector path, and fall back to keyword search
exactly when the vector path produced zero results. -/
def «recall» (vdist : List ℚ → List ℚ → ℚ) (embedOutcome : Except String (List ℚ))
    (agent query : String) (limit : Nat) (session_id : Option String)
    (db : List MemRow) : List MemoryEntry :=
  let vecResults :=
    match embedOutcome with
    | .ok qvec => vectorSearch vdist agent qvec limit session_id db
    | .error _ => []
  if vecResults.isEmpty then keywordSearch agent query limit session_id db
  else vecResults

/-- `OracleMemory::get`: point lookup by `(key, agent_id)`, bumping
`access_count` on every row of that key (best-effort side effect). -/
def get (agent key : String) (db : List MemRow) :
    Option MemoryEntry × List MemRow :=
  match db.find? (rowMatchesKey agent key) with
  | some r =>
    (some (rowToEntry r),
     db.map (fun q =>
       if rowMatchesKey agent key q then { q with access_count := q.access_count + 1 }
       else q))
  | none => (none, db)

/-- `OracleMemory::list`: rows of this agent filtered by optional category
string and session, most recently updated first. -/
def list (agent : String) (category : Option MemoryCategory)
    (session_id : Option String) (db : List MemRow) : List MemoryEntry :=
  let matched := db.filter (fun r =>
    r.agent_id = agent &&
    (match category with | some c => r.category = c.toStr | none => true) &&
    sessionMatches session_id r)
  (sortBy (fun a b => b.updated_at ≤ a.updated_at) matched).map rowToEntry

end OracleMemory

/-! ## Concrete instances used by example theorems -/

/-- A sample cache entry created at instant 0. -/
def entryA : CacheEntry := ⟨"m", "r", 5, 0, 0, 0⟩

/-- A sample cache entry created at instant 10, last accessed at 11. -/
def entryB : CacheEntry := ⟨"m", "rb", 7, 10, 11, 2⟩

/-- A one-entry cache with TTL 1 and capacity 1. -/
def cacheA : ResponseCache := ⟨[("a", entryA)], 1, 1⟩

/-- A two-entry cache with TTL 1000 and capacity 10. -/
def cacheB : ResponseCache := ⟨[("a", entryA), ("b", entryB)], 1000, 10⟩

/-- A stored row without an embedding vector. -/
def rowA : MemRow := ⟨"id0", "agent", "k", "some content", "core", none, none, 0, 0, 0⟩

/-- A stored row whose content is `"abc"`. -/
def rowAbc : MemRow := ⟨"id1", "agent", "k", "abc", "core", none, none, 0, 0, 0⟩

/-- A stored row carrying the embedding vector `[1]`. -/
def rowEmb : MemRow := ⟨"id2", "agent", "k", "note", "core", none, some [1], 0, 0, 0⟩

/-- A sample external distance function that always answers 1/2. -/
def vdistHalf : List ℚ → List ℚ → ℚ := fun _ _ => 1 / 2

/-- A sample external distance function that always answers 0. -/
def vdistZero : List ℚ → List ℚ → ℚ := fun _ _ => 0

/-- The entry which the vector path returns for `rowEmb` under `vdistHalf`. -/
def entryEmb : MemoryEntry :=
  { rowToEntry rowEmb with
    score := some (OracleMemory.similarity_from_distance
      (vdistHalf (rowEmb.embedding.getD []) [1])) }

/-- The entry which the keyword fallback returns for `rowA`. -/
def entryKw : MemoryEntry := { rowToEntry rowA with score := some (1 / 2) }

/-- Remove the first occurrence of a pair from an entry list (used to
state how a single entry contributes to the cache statistics). -/
def removeFirst (x : String × CacheEntry) :
    List (String × CacheEntry) → List (String × CacheEntry)
  | [] => []
  | y :: rest => if y = x then rest else y :: removeFirst x rest

/-! ## Supporting lemmas for the cache -/

namespace ResponseCache

theorem evictLRU_subset (maxEntries : Nat) (es : List (String × CacheEntry)) :
    ∀ x ∈ evictLRU maxEntries es, x ∈ es := by
  induction es using evictLRU.induct maxEntries with
  | case1 es hle =>
    intro x hx
    rw [evictLRU, if_pos hle] at hx
    exact hx
  | case2 es hgt hnone =>
    intro x hx
    rw [evictLRU, if_neg hgt] at hx
    split at hx
    · exact hx
    · next p heq =>
      rw [hnone] at heq
      cases heq
  | case3 es hgt p hp ih =>
    intro x hx
    rw [evictLRU, if_neg hgt] at hx
    split at hx
    · exact hx
    · next p' heq =>
      have hpp : p' = p := by
        rw [hp] at heq
        exact (Option.some.inj heq).symm
      subst hpp
      exact List.mem_of_mem_eraseP (ih x hx)

theorem evictLRU_length_le (maxEntries : Nat) (es : List (String × CacheEntry)) :
    (evictLRU maxEntries es).length ≤ maxEntries := by
  induction es using evictLRU.induct maxEntries with
  | case1 es hle =>
    rw [evictLRU, if_pos hle]
    exact hle
  | case2 es hgt hnone =>
    exfalso
    rw [findMinAccessed_eq_none hnone] at hgt
    exact hgt (Nat.zero_le _)
  | case3 es hgt p hp ih =>
    rw [evictLRU, if_neg hgt]
    split
    · next heq =>
      rw [hp] at heq
      cases heq
    · next p' heq =>
      have hpp : p' = p := by
        rw [hp] at heq
        exact (Option.some.inj heq).symm
      subst hpp
      exact ih

theorem pairwiseKeys_eq {es : List (String × CacheEntry)}
    (h : es.Pairwise (fun p q => p.1 ≠ q.1)) :
    ∀ a ∈ es, ∀ b ∈ es, a.1 = b.1 → a = b := by
  induction es with
  | nil =>
    intro a ha
    cases ha
  | cons e rest ih =>
    intro a ha b hb hk
    rcases List.mem_cons.mp ha with rfl | ha'
    · rcases List.mem_cons.mp hb with rfl | hb'
      · rfl
      · exact absurd hk ((List.pairwise_cons.mp h).1 b hb')
    · rcases List.mem_cons.mp hb with rfl | hb'
      · exact absurd hk.symm ((List.pairwise_cons.mp h).1 a ha')
      · exact ih (List.pairwise_cons.mp h).2 a ha' b hb' hk

theorem evictLRU_oldest_first (maxEntries : Nat) (es : List (String × CacheEntry)) :
    es.Pairwise (fun p q => p.1 ≠ q.1) →
    ∀ x ∈ es, x ∉ evictLRU maxEntries es →
      ∀ y ∈ evictLRU maxEntries es, x.2.accessed_at ≤ y.2.accessed_at := by
  induction es using evictLRU.induct maxEntries with
  | case1 es hle =>
    intro _ x hx hnx y _
    rw [evictLRU, if_pos hle] at hnx
    exact absurd hx hnx
  | case2 es hgt hnone =>
    intro _ x hx hnx y _
    rw [evictLRU, if_neg hgt] at hnx
    split at hnx
    · exact absurd hx hnx
    · next p heq =>
      rw [hnone] at heq
      cases heq
  | case3 es hgt p hp ih =>
    intro hnd x hx hnx y hy
    have hrw : evictLRU maxEntries es =
        evictLRU maxEntries (es.eraseP (fun q => q.1 = p.1)) := by
      rw [evictLRU, if_neg hgt]
      split
      · next heq =>
        rw [hp] at heq
        cases heq
      · next p' heq =>
        have hpp : p' = p := by
          rw [hp] at heq
          exact (Option.some.inj heq).symm
        rw [hpp]
    rw [hrw] at hnx hy
    have hnd' : (es.eraseP (fun q => q.1 = p.1)).Pairwise (fun p q => p.1 ≠ q.1) :=
      List.Pairwise.sublist (List.eraseP_sublist es) hnd
    by_cases hx' : x ∈ es.eraseP (fun q => q.1 = p.1)
    · exact ih hnd' x hx' hnx y hy
    · have hpred : x.1 = p.1 := by
        by_contra hc
        have hiff := List.mem_eraseP_of_neg
          (p := fun q => decide (q.1 = p.1)) (l := es) (a := x) (by simpa using hc)
        exact hx' (hiff.mpr hx)
      have hxp : x = p := pairwiseKeys_eq hnd x hx p (findMinAccessed_mem hp) hpred
      subst hxp
      exact findMinAccessed_le hp y (List.mem_of_mem_eraseP (evictLRU_subset _ _ y hy))

theorem putPending_pairwise (c : ResponseCache) (now : Int)
    (key model response : String) (token_count : Nat)
    (hnd : c.entries.Pairwise (fun p q => p.1 ≠ q.1)) :
    (c.putPending now key model response token_count).Pairwise
      (fun p q => p.1 ≠ q.1) := by
  unfold putPending
  apply List.Pairwise.sublist (List.filter_sublist _)
  refine List.pairwise_cons.mpr ⟨?_, ?_⟩
  · intro q hq
    have hne := (List.mem_filter.mp hq).2
    simp only [decide_not, Bool.not_eq_true', decide_eq_false_iff_not] at hne
    exact fun h => hne h.symm
  · exact List.Pairwise.sublist (List.filter_sublist _) hnd

theorem find?_eq_of_pairwise_mem {es : List (String × CacheEntry)} {k : String}
    {e : CacheEntry} (hnd : es.Pairwise (fun p q => p.1 ≠ q.1))
    (hmem : (k, e) ∈ es) :
    es.find? (fun p => p.1 = k) = some (k, e) := by
  induction es with
  | nil => cases hmem
  | cons q rest ih =>
    rcases List.mem_cons.mp hmem with h | h'
    · rw [← h]
      exact List.find?_cons_of_pos _ (by simp)
    · have hq : ¬ q.1 = k := by
        have := (List.pairwise_cons.mp hnd).1 (k, e) h'
        simpa using this
      rw [List.find?_cons_of_neg _ (by simpa using hq)]
      exact ih (List.pairwise_cons.mp hnd).2 h'

end ResponseCache

theorem perm_cons_removeFirst {x : String × CacheEntry} :
    ∀ {l : List (String × CacheEntry)}, x ∈ l → l.Perm (x :: removeFirst x l) := by
  intro l
  induction l with
  | nil => intro h; cases h
  | cons y rest ih =>
    intro h
    by_cases hxy : y = x
    · rw [removeFirst, if_pos hxy, hxy]
    · rw [removeFirst, if_neg hxy]
      have hx : x ∈ rest := by
        rcases List.mem_cons.mp h with h1 | h1
        · exact absurd h1.symm hxy
        · exact h1
      exact ((ih hx).cons y).trans (List.Perm.swap x y _)

/-! ## Claim theorems: the response cache -/

/-- C2 counterexample: the claim asserts the key computed with an absent
system prompt differs from the key computed with an empty-string system
prompt; the code hashes the identical byte stream in both cases, so at
this concrete input the two keys are equal (which is also a change of a
single field — `None` to `Some("")` — that does not change the key). -/
theorem c2_counterexample :
    ResponseCache.cache_key "m" none "u" =
      ResponseCache.cache_key "m" (some "") "u" := rfl

/-- C2 (amended): `cache_key` is deterministic — equal `(model,
system_prompt, user_prompt)` triples always yield equal keys — and for
every model and user prompt the key produced with `system_prompt` absent
EQUALS the key produced with an empty-string system prompt (the hasher
receives nothing between the two separators in both cases).  Changing any
single one of the three fields, other than swapping `None` with
`Some("")`, changes the message string whose UTF-8 bytes are hashed, and
hence changes the key whenever SHA-256 does not collide. -/
theorem c2_cache_key_deterministic :
    (∀ m s u m' s' u', m = m' → s = s' → u = u' →
        ResponseCache.cache_key m s u = ResponseCache.cache_key m' s' u') ∧
    (∀ m u, ResponseCache.cache_key m none u =
        ResponseCache.cache_key m (some "") u) ∧
    (∀ m₁ m₂ s u, m₁ ≠ m₂ →
        ResponseCache.cacheKeyMessage m₁ s u ≠ ResponseCache.cacheKeyMessage m₂ s u) ∧
    (∀ m s u₁ u₂, u₁ ≠ u₂ →
        ResponseCache.cacheKeyMessage m s u₁ ≠ ResponseCache.cacheKeyMessage m s u₂) ∧
    (∀ m s₁ s₂ u, ResponseCache.sysPromptStr s₁ ≠ ResponseCache.sysPromptStr s₂ →
        ResponseCache.cacheKeyMessage m s₁ u ≠ ResponseCache.cacheKeyMessage m s₂ u) := by
  refine ⟨?_, ?_, ?_, ?_, ?_⟩
  · intro m s u m' s' u' hm hs hu
    rw [hm, hs, hu]
  · intro m u
    rfl
  · intro m₁ m₂ s u hne heq
    apply hne
    have hd := congrArg String.data heq
    simp only [ResponseCache.cacheKeyMessage, String.data_append] at hd
    exact String.ext (List.append_cancel_right (List.append_cancel_right
      (List.append_cancel_right (List.append_cancel_right hd))))
  · intro m s u₁ u₂ hne heq
    apply hne
    have hd := congrArg String.data heq
    simp only [ResponseCache.cacheKeyMessage, String.data_append] at hd
    exact String.ext (List.append_cancel_left hd)
  · intro m s₁ s₂ u hne heq
    apply hne
    have hd := congrArg String.data heq
    simp only [ResponseCache.cacheKeyMessage, String.data_append] at hd
    exact String.ext (List.append_cancel_left
      (List.append_cancel_right (List.append_cancel_right hd)))

/-- C2 witness: the amended theorem applied at concrete inputs, echoing the
repository's cache-key unit tests. -/
theorem c2_witness :
    (ResponseCache.cache_key "gpt-4" (some "sys") "hello" =
       ResponseCache.cache_key "gpt-4" (some "sys") "hello") ∧
    (ResponseCache.cache_key "m" none "u" =
       ResponseCache.cache_key "m" (some "") "u") ∧
    ResponseCache.cacheKeyMessage "gpt-4" none "hello" ≠
      ResponseCache.cacheKeyMessage "claude-3" none "hello" ∧
    ResponseCache.cacheKeyMessage "gpt-4" none "hello" ≠
      ResponseCache.cacheKeyMessage "gpt-4" none "goodbye" ∧
    ResponseCache.cacheKeyMessage "gpt-4" (some "You are helpful") "hello" ≠
      ResponseCache.cacheKeyMessage "gpt-4" (some "You are rude") "hello" :=
  ⟨c2_cache_key_deterministic.1 "gpt-4" (some "sys") "hello" _ _ _ rfl rfl rfl,
   c2_cache_key_deterministic.2.1 "m" "u",
   c2_cache_key_deterministic.2.2.1 _ _ none "hello" (by decide),
   c2_cache_key_deterministic.2.2.2.1 "gpt-4" none _ _ (by decide),
   c2_cache_key_deterministic.2.2.2.2 "gpt-4" _ _ "hello" (by decide)⟩

/-- C7: immediately after every `put` on a cache whose map has
pairwise-distinct keys: no surviving entry has `created_at` at or before
`now - ttl`, the entry count is at most `max_entries` (so a cache with
`max_entries = 0` is empty after every put), and every entry the LRU stage
evicted has an `accessed_at` no newer than that of every survivor — the
oldest `accessed_at` is always removed first. -/
theorem c7_put_expiry_cap_lru (c : ResponseCache) (now : Int)
    (key model response : String) (token_count : Nat)
    (hnd : c.entries.Pairwise (fun p q => p.1 ≠ q.1)) :
    (∀ p ∈ (c.put now key model response token_count).entries,
        now - (c.ttl_minutes : Int) < p.2.created_at) ∧
    ((c.put now key model response token_count).entries.length ≤ c.max_entries) ∧
    (c.max_entries = 0 → (c.put now key model response token_count).entries = []) ∧
    (∀ x ∈ c.putPending now key model response token_count,
        x ∉ (c.put now key model response token_count).entries →
        ∀ y ∈ (c.put now key model response token_count).entries,
          x.2.accessed_at ≤ y.2.accessed_at) := by
  refine ⟨?_, ?_, ?_, ?_⟩
  · intro p hp
    have hp' := ResponseCache.evictLRU_subset _ _ p hp
    have hcond := (List.mem_filter.mp hp').2
    simpa using hcond
  · exact ResponseCache.evictLRU_length_le _ _
  · intro h0
    show ResponseCache.evictLRU c.max_entries
      (c.putPending now key model response token_count) = []
    rw [h0]
    have hlen := ResponseCache.evictLRU_length_le 0
      (c.putPending now key model response token_count)
    rw [Nat.le_zero] at hlen
    exact List.eq_nil_of_length_eq_zero hlen
  · intro x hx hnx y hy
    exact ResponseCache.evictLRU_oldest_first _ _
      (ResponseCache.putPending_pairwise c now key model response token_count hnd)
      x hx hnx y hy

/-- C7 witness: the theorem applied to a concrete one-entry cache with
TTL 1 and capacity 1. -/
theorem c7_witness :
    (∀ p ∈ (cacheA.put 100 "b" "m2" "r2" 7).entries,
        (100 : Int) - (cacheA.ttl_minutes : Int) < p.2.created_at) ∧
    ((cacheA.put 100 "b" "m2" "r2" 7).entries.length ≤ cacheA.max_entries) ∧
    (cacheA.max_entries = 0 → (cacheA.put 100 "b" "m2" "r2" 7).entries = []) ∧
    (∀ x ∈ cacheA.putPending 100 "b" "m2" "r2" 7,
        x ∉ (cacheA.put 100 "b" "m2" "r2" 7).entries →
        ∀ y ∈ (cacheA.put 100 "b" "m2" "r2" 7).entries,
          x.2.accessed_at ≤ y.2.accessed_at) :=
  c7_put_expiry_cap_lru cacheA 100 "b" "m2" "r2" 7 (by decide)

/-- C8: `get` misses (returning `None`) when the key is absent, and when
the found entry has `created_at` at or before `now - ttl` it deletes that
entry in the same lookup and returns `None`; on a non-expired hit it
returns a copy of the response, increments that entry's `hit_count` by
exactly one, sets its `accessed_at` to `now`, and leaves every other entry
in place.  Consequently, with `ttl = 0`, a `get` immediately following a
`put` of that key returns `None`. -/
theorem c8_get_spec (c : ResponseCache) (now : Int) (key : String) :
    (c.entries.find? (fun p => p.1 = key) = none → c.get now key = (none, c)) ∧
    (∀ e, c.entries.find? (fun p => p.1 = key) = some e →
        e.2.created_at ≤ now - (c.ttl_minutes : Int) →
        c.get now key =
          (none, { c with entries := c.entries.filter (fun q => ¬ q.1 = key) })) ∧
    (∀ e, c.entries.find? (fun p => p.1 = key) = some e →
        now - (c.ttl_minutes : Int) < e.2.created_at →
        (c.get now key).1 = some e.2.response ∧
        (key, { e.2 with hit_count := e.2.hit_count + 1, accessed_at := now }) ∈
          (c.get now key).2.entries ∧
        (∀ q ∈ c.entries, q.1 ≠ key → q ∈ (c.get now key).2.entries)) ∧
    (∀ model response token_count, c.ttl_minutes = 0 →
        ((c.put now key model response token_count).get now key).1 = none) := by
  refine ⟨?_, ?_, ?_, ?_⟩
  · intro h
    simp only [ResponseCache.get, h]
  · intro e hf hexp
    simp only [ResponseCache.get, hf]
    rw [if_neg (not_lt.mpr hexp)]
  · intro e hf hlt
    have hkey : e.1 = key := by
      have := List.find?_some hf
      simpa using this
    have hmem : e ∈ c.entries := List.mem_of_find?_eq_some hf
    simp only [ResponseCache.get, hf]
    rw [if_pos hlt]
    refine ⟨rfl, ?_, ?_⟩
    · have hfe : (fun q => if q.1 = key then
          (q.1, { q.2 with hit_count := q.2.hit_count + 1, accessed_at := now })
          else q) e =
          (key, { e.2 with hit_count := e.2.hit_count + 1, accessed_at := now }) := by
        simp [hkey]
      exact hfe ▸ List.mem_map_of_mem _ hmem
    · intro q hq hqk
      have hfq : (fun q => if q.1 = key then
          (q.1, { q.2 with hit_count := q.2.hit_count + 1, accessed_at := now })
          else q) q = q := by
        simp [hqk]
      exact hfq ▸ List.mem_map_of_mem _ hq
  · intro model response token_count h0
    have hfind : (c.put now key model response token_count).entries.find?
        (fun p => p.1 = key) = none := by
      rw [List.find?_eq_none]
      intro x hx
      have hx1 := ResponseCache.evictLRU_subset _ _ x hx
      have hx2 := List.mem_filter.mp hx1
      have hcond : now - (c.ttl_minutes : Int) < x.2.created_at := by
        simpa using hx2.2
      rw [h0] at hcond
      rcases List.mem_cons.mp hx2.1 with h | h
      · exfalso
        rw [h] at hcond
        simp at hcond
      · have := (List.mem_filter.mp h).2
        simpa using this
    simp only [ResponseCache.get, hfind]

/-- C8 witness: a concrete non-expired hit on a two-entry cache, and a
concrete `put` followed by `get` on a cache with TTL 0. -/
theorem c8_witness :
    ((cacheB.get 100 "b").1 = some entryB.response ∧
     ("b", { entryB with hit_count := entryB.hit_count + 1, accessed_at := 100 }) ∈
       (cacheB.get 100 "b").2.entries ∧
     (∀ q ∈ cacheB.entries, q.1 ≠ "b" → q ∈ (cacheB.get 100 "b").2.entries)) ∧
    (((ResponseCache.put ⟨[], 0, 5⟩ 3 "k" "m" "r" 9).get 3 "k").1 = none) :=
  ⟨(c8_get_spec cacheB 100 "b").2.2.1 ("b", entryB) (by decide) (by decide),
   (c8_get_spec ⟨[], 0, 5⟩ 3 "k").2.2.2 "m" "r" 9 rfl⟩

/-- C10: `stats` computes `(entry_count, total_hits, total_tokens_saved)`
over every entry resident in the map with no TTL filtering: changing the
TTL changes nothing, and an expired entry still contributes 1 to the
count, its `hit_count` to the hits, and `token_count * hit_count` to the
tokens saved.  The expired entry leaves the figures only through a `get`
on its own key (lazy expiry, which deletes it) or through the sweep of any
subsequent `put`; `stats` itself is a pure read of the state. -/
theorem c10_stats_counts_expired (c : ResponseCache) (now : Int) (k : String)
    (e : CacheEntry)
    (hnd : c.entries.Pairwise (fun p q => p.1 ≠ q.1))
    (hmem : (k, e) ∈ c.entries)
    (hexp : e.created_at ≤ now - (c.ttl_minutes : Int)) :
    (∀ t', ResponseCache.stats ⟨c.entries, t', c.max_entries⟩ = c.stats) ∧
    c.stats.1 = (removeFirst (k, e) c.entries).length + 1 ∧
    c.stats.2.1 =
      ((removeFirst (k, e) c.entries).map (fun p => p.2.hit_count)).sum + e.hit_count ∧
    c.stats.2.2 =
      ((removeFirst (k, e) c.entries).map
        (fun p => p.2.token_count * p.2.hit_count)).sum +
        e.token_count * e.hit_count ∧
    ((c.get now k).1 = none ∧ ∀ q ∈ (c.get now k).2.entries, ¬ q.1 = k) ∧
    (∀ now2 key2 model response token_count, now ≤ now2 →
        (k, e) ∉ (c.put now2 key2 model response token_count).entries) := by
  have hperm : c.entries.Perm ((k, e) :: removeFirst (k, e) c.entries) :=
    perm_cons_removeFirst hmem
  have hfind := ResponseCache.find?_eq_of_pairwise_mem hnd hmem
  refine ⟨fun t' => rfl, ?_, ?_, ?_, ?_, ?_⟩
  · simpa using hperm.length_eq
  · have := (hperm.map (fun p => p.2.hit_count)).sum_eq
    simp only [List.map_cons, List.sum_cons] at this
    simp only [ResponseCache.stats]
    omega
  · have := (hperm.map (fun p => p.2.token_count * p.2.hit_count)).sum_eq
    simp only [List.map_cons, List.sum_cons] at this
    simp only [ResponseCache.stats]
    omega
  · constructor
    · simp only [ResponseCache.get, hfind]
      rw [if_neg (not_lt.mpr hexp)]
    · intro q hq
      simp only [ResponseCache.get, hfind] at hq
      rw [if_neg (not_lt.mpr hexp)] at hq
      have := (List.mem_filter.mp hq).2
      simpa using this
  · intro now2 key2 model response token_count hle hbad
    have h1 := ResponseCache.evictLRU_subset _ _ _ hbad
    have h2 := (List.mem_filter.mp h1).2
    have hcond : now2 - (c.ttl_minutes : Int) < e.created_at := by
      simpa using h2
    omega

/-- C10 witness: the theorem applied to the one-entry cache whose entry
(created at 0, TTL 1) is expired at instant 100. -/
theorem c10_witness :
    (∀ t', ResponseCache.stats ⟨cacheA.entries, t', cacheA.max_entries⟩ = cacheA.stats) ∧
    cacheA.stats.1 = (removeFirst ("a", entryA) cacheA.entries).length + 1 ∧
    cacheA.stats.2.1 =
      ((removeFirst ("a", entryA) cacheA.entries).map (fun p => p.2.hit_count)).sum +
        entryA.hit_count ∧
    cacheA.stats.2.2 =
      ((removeFirst ("a", entryA) cacheA.entries).map
        (fun p => p.2.token_count * p.2.hit_count)).sum +
        entryA.token_count * entryA.hit_count ∧
    ((cacheA.get 100 "a").1 = none ∧ ∀ q ∈ (cacheA.get 100 "a").2.entries, ¬ q.1 = "a") ∧
    (∀ now2 key2 model response token_count, (100 : Int) ≤ now2 →
        ("a", entryA) ∉ (cacheA.put now2 key2 model response token_count).entries) :=
  c10_stats_counts_expired cacheA 100 "a" entryA (by decide) (by decide) (by decide)

/-! ## Supporting lemmas for the memory model -/

namespace OracleMemory

theorem store_fresh (agent : String) (embedOutcome : Except String (List ℚ))
    (uuid k content : String) (cat : MemoryCategory) (sid : Option String)
    (now : Int) (db : List MemRow)
    (hfresh : db.any (rowMatchesKey agent k) = false) :
    store agent embedOutcome uuid k content cat sid now db =
      db ++ [{ memory_id := uuid, agent_id := agent, key := k, content := content,
               category := cat.toStr, session_id := sid,
               embedding := match embedOutcome with | .ok v => some v | .error _ => none,
               created_at := now, updated_at := now, access_count := 0 }] := by
  simp [store, hfresh]

theorem store_matched (agent : String) (embedOutcome : Except String (List ℚ))
    (uuid k content : String) (cat : MemoryCategory) (sid : Option String)
    (now : Int) (db : List MemRow)
    (hmatch : db.any (rowMatchesKey agent k) = true) :
    store agent embedOutcome uuid k content cat sid now db =
      db.map (fun r =>
        if rowMatchesKey agent k r then
          { r with
              content := content, category := cat.toStr, session_id := sid,
              embedding :=
                match (match embedOutcome with | .ok v => some v | .error _ => none) with
                | some v => some v
                | none => r.embedding,
              updated_at := now }
        else r) := by
  simp [store, hmatch]

theorem map_update_nomatch (agent k : String) (f : MemRow → MemRow)
    (db : List MemRow) (h : ∀ r ∈ db, rowMatchesKey agent k r = false) :
    db.map (fun r => if rowMatchesKey agent k r then f r else r) = db := by
  induction db with
  | nil => rfl
  | cons r rest ih =>
    have h0 := h r (List.mem_cons_self _ _)
    simp only [List.map_cons, h0, Bool.false_eq_true, if_false]
    rw [ih (fun x hx => h x (List.mem_cons_of_mem _ hx))]

theorem filter_matches_nil (agent k : String) (db : List MemRow)
    (h : ∀ r ∈ db, rowMatchesKey agent k r = false) :
    db.filter (rowMatchesKey agent k) = [] := by
  induction db with
  | nil => rfl
  | cons r rest ih =>
    have h0 := h r (List.mem_cons_self _ _)
    rw [List.filter_cons_of_neg (by simp [h0])]
    exact ih (fun x hx => h x (List.mem_cons_of_mem _ hx))

end OracleMemory

theorem insertSorted_perm {α : Type} (le : α → α → Bool) (a : α) (l : List α) :
    (insertSorted le a l).Perm (a :: l) := by
  induction l with
  | nil => exact List.Perm.refl _
  | cons x rest ih =>
    rw [insertSorted]
    split
    · exact List.Perm.refl _
    · exact (ih.cons x).trans (List.Perm.swap a x rest)

theorem sortBy_perm {α : Type} (le : α → α → Bool) (l : List α) :
    (sortBy le l).Perm l := by
  induction l with
  | nil => exact List.Perm.refl _
  | cons x rest ih =>
    rw [sortBy]
    exact (insertSorted_perm le x (sortBy le rest)).trans (ih.cons x)

theorem likeMatchesAux_literal_elim :
    ∀ (q : List Char) (fuel : Nat) (ps t : List Char),
      (∀ c ∈ q, c ≠ '%' ∧ c ≠ '_') →
      OracleMemory.likeMatchesAux fuel (q ++ ps) t = true →
      ∃ t' f, t = q ++ t' ∧ OracleMemory.likeMatchesAux f ps t' = true := by
  intro q
  induction q with
  | nil =>
    intro fuel ps t _ h
    exact ⟨t, fuel, rfl, h⟩
  | cons c q' ih =>
    intro fuel ps t hmf h
    have hc := hmf c (List.mem_cons_self _ _)
    rw [List.cons_append] at h
    cases fuel with
    | zero => simp [OracleMemory.likeMatchesAux] at h
    | succ fuel =>
      simp only [OracleMemory.likeMatchesAux] at h
      rw [if_neg hc.1] at h
      cases t with
      | nil => simp at h
      | cons d ts =>
        have h' : ((if c = '_' then true else decide (c = d)) &&
            OracleMemory.likeMatchesAux fuel (q' ++ ps) ts) = true := h
        rw [if_neg hc.2] at h'
        obtain ⟨hcd, h2⟩ := Bool.and_eq_true_iff.mp h'
        have hcd' : c = d := by simpa using hcd
        obtain ⟨t', f, ht, hf⟩ := ih fuel ps ts
          (fun x hx => hmf x (List.mem_cons_of_mem _ hx)) h2
        exact ⟨t', f, by rw [ht, hcd', List.cons_append], hf⟩

theorem likeMatchesAux_percent_elim :
    ∀ (fuel : Nat) (ps t : List Char),
      OracleMemory.likeMatchesAux fuel ('%' :: ps) t = true →
      ∃ t₂ f, t₂ <:+ t ∧ OracleMemory.likeMatchesAux f ps t₂ = true := by
  intro fuel
  induction fuel with
  | zero =>
    intro ps t h
    simp [OracleMemory.likeMatchesAux] at h
  | succ fuel ih =>
    intro ps t h
    simp only [OracleMemory.likeMatchesAux, if_true] at h
    rcases Bool.or_eq_true_iff.mp h with h1 | h1
    · exact ⟨t, fuel, List.suffix_refl t, h1⟩
    · cases t with
      | nil => cases h1
      | cons d ts =>
        obtain ⟨t₂, f, hsuf, hf⟩ := ih ps ts h1
        exact ⟨t₂, f, hsuf.trans (List.suffix_cons d ts), hf⟩

theorem likeMatches_infix (q t : List Char)
    (hmf : ∀ c ∈ q, c ≠ '%' ∧ c ≠ '_')
    (h : OracleMemory.likeMatches ('%' :: (q ++ ['%'])) t = true) :
    q <:+: t := by
  obtain ⟨t₂, f, hsuf, hf⟩ := likeMatchesAux_percent_elim _ _ _ h
  obtain ⟨t₃, f', ht₂, _⟩ := likeMatchesAux_literal_elim q f ['%'] t₂ hmf hf
  obtain ⟨s, hs⟩ := hsuf
  exact ⟨s, t₃, by rw [List.append_assoc, ← ht₂, hs]⟩

theorem asciiLowerChar_ne_meta (c : Char) (h1 : c ≠ '%') (h2 : c ≠ '_') :
    asciiLowerChar c ≠ '%' ∧ asciiLowerChar c ≠ '_' := by
  unfold asciiLowerChar
  split
  · next hin =>
    have hv : (c.toNat + 32).isValidChar := by
      unfold Nat.isValidChar
      omega
    have htn : (Char.ofNat (c.toNat + 32)).toNat = c.toNat + 32 := by
      rw [Char.ofNat, dif_pos hv]
      rfl
    constructor
    · intro heq
      have h3 := congrArg Char.toNat heq
      rw [htn, show ('%').toNat = 37 from rfl] at h3
      omega
    · intro heq
      have h3 := congrArg Char.toNat heq
      rw [htn, show ('_').toNat = 95 from rfl] at h3
      omega
  · exact ⟨h1, h2⟩

theorem lowerChars_percent_pattern (query : String) :
    OracleMemory.lowerChars ("%" ++ query ++ "%") =
      '%' :: (OracleMemory.lowerChars query ++ ['%']) := by
  unfold OracleMemory.lowerChars
  rw [String.data_append, String.data_append, List.map_append, List.map_append]
  rfl

theorem keywordSearch_mem {agent query : String} {limit : Nat}
    {sid : Option String} {db : List MemRow} {e : MemoryEntry}
    (he : e ∈ OracleMemory.keywordSearch agent query limit sid db) :
    ∃ r ∈ db, e = { rowToEntry r with score := some (1 / 2) } ∧
      r.agent_id = agent ∧ OracleMemory.keywordMatch query r = true ∧
      OracleMemory.sessionMatches sid r = true := by
  simp only [OracleMemory.keywordSearch] at he
  rw [List.mem_map] at he
  obtain ⟨r, hr, hre⟩ := he
  have hr1 := List.mem_of_mem_take hr
  have hr2 := (sortBy_perm _ _).mem_iff.mp hr1
  have hr3 := List.mem_filter.mp hr2
  have hcond := hr3.2
  simp only [Bool.and_eq_true, decide_eq_true_eq] at hcond
  exact ⟨r, hr3.1, hre.symm, hcond.1.1, hcond.1.2, hcond.2⟩

theorem vectorSearch_mem {vdist : List ℚ → List ℚ → ℚ} {agent : String}
    {qvec : List ℚ} {limit : Nat} {sid : Option String} {db : List MemRow}
    {e : MemoryEntry}
    (he : e ∈ OracleMemory.vectorSearch vdist agent qvec limit sid db) :
    ∃ r ∈ db,
      ¬ OracleMemory.similarity_from_distance (vdist (r.embedding.getD []) qvec) <
          OracleMemory.MIN_SIMILARITY ∧
      e = { rowToEntry r with
            score := some (OracleMemory.similarity_from_distance
              (vdist (r.embedding.getD []) qvec)) } := by
  simp only [OracleMemory.vectorSearch] at he
  rw [List.mem_filterMap] at he
  obtain ⟨r, hr, hfr⟩ := he
  have hr1 := List.mem_of_mem_take hr
  have hr2 := (sortBy_perm _ _).mem_iff.mp hr1
  have hr3 := List.mem_filter.mp hr2
  by_cases hlt : OracleMemory.similarity_from_distance
      (vdist (r.embedding.getD []) qvec) < OracleMemory.MIN_SIMILARITY
  · rw [if_pos hlt] at hfr
    cases hfr
  · rw [if_neg hlt] at hfr
    exact ⟨r, hr3.1, hlt, (Option.some.inj hfr).symm⟩

/-! ## Claim theorems: the memory subsystem -/

/-- C1: evaluation of the code at the failing input.  The claim (and the
Memory-trait contract exercised by `tests/memory_restart.rs`, whose local
backend returns `Ok(Vec::new())` for an empty query) says recall with the
empty query returns an empty list immediately, with no embedding request
and no entry lookup; `OracleMemory::recall` has no such guard — it still
requests an embedding of `""` and queries storage, and with the embedder
failing and one stored row the keyword fallback pattern `%%` (the empty
string is a substring of everything) matches that row, so recall returns
it with score 0.5 instead of the empty list. -/
theorem c1_recall_empty_query_returns_entry :
    OracleMemory.«recall» vdistZero (.error "embedding unavailable")
        "agent" "" 10 none [rowA] =
      [{ id := "id0", key := "k", content := "some content",
         category := .core, timestamp := 0, session_id := none,
         score := some (1 / 2) }] := by
  rfl

/-- C3: from a state holding no entry for `(agent, k)`, executing
`store(k, c1, ...)` then `store(k, c2, ...)` leaves exactly one entry for
`k` in the agent's namespace; its content is `c2`, its id is the id the
first store assigned, its `created_at` is the first store's instant, and
its category, session and `updated_at` are refreshed by the second store. -/
theorem c3_store_twice_single_row (db : List MemRow)
    (agent k c1 c2 uuid1 uuid2 : String) (cat1 cat2 : MemoryCategory)
    (sid1 sid2 : Option String) (e1 e2 : Except String (List ℚ)) (t1 t2 : Int)
    (hfresh : ∀ r ∈ db, ¬ (r.key = k ∧ r.agent_id = agent)) :
    ∃ row : MemRow,
      (OracleMemory.store agent e2 uuid2 k c2 cat2 sid2 t2
          (OracleMemory.store agent e1 uuid1 k c1 cat1 sid1 t1 db)).filter
        (OracleMemory.rowMatchesKey agent k) = [row] ∧
      row.content = c2 ∧ row.memory_id = uuid1 ∧ row.category = cat2.toStr ∧
      row.session_id = sid2 ∧ row.created_at = t1 ∧ row.updated_at = t2 := by
  have hnm : ∀ r ∈ db, OracleMemory.rowMatchesKey agent k r = false := by
    intro r hr
    have := hfresh r hr
    simp only [OracleMemory.rowMatchesKey, Bool.and_eq_true, decide_eq_true_eq,
      Bool.and_eq_false_iff, decide_eq_false_iff_not]
    tauto
  have hany1 : db.any (OracleMemory.rowMatchesKey agent k) = false := by
    rw [List.any_eq_false]
    intro r hr
    simp [hnm r hr]
  obtain ⟨row1, hrow1⟩ : ∃ row1 : MemRow,
      row1 = { memory_id := uuid1, agent_id := agent, key := k, content := c1,
               category := cat1.toStr, session_id := sid1,
               embedding := match e1 with | .ok v => some v | .error _ => none,
               created_at := t1, updated_at := t1, access_count := 0 } := ⟨_, rfl⟩
  have h1 := OracleMemory.store_fresh agent e1 uuid1 k c1 cat1 sid1 t1 db hany1
  rw [← hrow1] at h1
  have hm1 : OracleMemory.rowMatchesKey agent k row1 = true := by
    rw [hrow1]
    simp [OracleMemory.rowMatchesKey]
  have hany2 : (db ++ [row1]).any (OracleMemory.rowMatchesKey agent k) = true := by
    rw [List.any_eq_true]
    exact ⟨row1, by simp, hm1⟩
  have h2 := OracleMemory.store_matched agent e2 uuid2 k c2 cat2 sid2 t2
    (db ++ [row1]) hany2
  obtain ⟨row2, hrow2⟩ : ∃ row2 : MemRow,
      row2 = { row1 with
        content := c2, category := cat2.toStr, session_id := sid2,
        embedding := (match (match e2 with | .ok v => some v | .error _ => none) with
                      | some v => some v
                      | none => row1.embedding),
        updated_at := t2 } := ⟨_, rfl⟩
  refine ⟨row2, ?_, by rw [hrow2], by rw [hrow2, hrow1], by rw [hrow2],
    by rw [hrow2], by rw [hrow2, hrow1], by rw [hrow2]⟩
  have hm2 : OracleMemory.rowMatchesKey agent k row2 = true := by
    rw [hrow2]
    exact hm1
  rw [h1, h2, List.map_append, OracleMemory.map_update_nomatch agent k _ db hnm]
  simp only [List.map_cons, List.map_nil, hm1, if_true]
  rw [List.filter_append, OracleMemory.filter_matches_nil agent k db hnm,
    List.nil_append, ← hrow2, List.filter_cons_of_pos hm2, List.filter_nil]

/-- C3 witness: the theorem applied to the empty initial state with two
concrete stores over the same key. -/
theorem c3_witness :
    ∃ row : MemRow,
      (OracleMemory.store "agent" (.ok [1]) "u2" "k" "c2" .daily (some "s2") 2
          (OracleMemory.store "agent" (.error "down") "u1" "k" "c1" .core none 1 [])).filter
        (OracleMemory.rowMatchesKey "agent" "k") = [row] ∧
      row.content = "c2" ∧ row.memory_id = "u1" ∧
      row.category = MemoryCategory.daily.toStr ∧
      row.session_id = some "s2" ∧ row.created_at = 1 ∧ row.updated_at = 2 :=
  c3_store_twice_single_row [] "agent" "k" "c1" "c2" "u1" "u2" .core .daily
    none (some "s2") (.error "down") (.ok [1]) 1 2 (by simp)

/-- C6: when the embedding call fails, `store` still upserts and returns
`Ok`: some row for `(agent, k)` with the new content always exists
afterwards; on a fresh key the whole effect is appending one row whose
`embedding` column is NULL; on a matched key the row is updated in place
with the old `embedding` column left untouched. -/
theorem c6_store_embed_failure_still_writes (db : List MemRow)
    (agent err uuid k content : String) (cat : MemoryCategory)
    (sid : Option String) (now : Int) :
    (∃ r ∈ OracleMemory.store agent (.error err) uuid k content cat sid now db,
        r.key = k ∧ r.agent_id = agent ∧ r.content = content) ∧
    ((∀ r ∈ db, ¬ (r.key = k ∧ r.agent_id = agent)) →
        OracleMemory.store agent (.error err) uuid k content cat sid now db =
          db ++ [{ memory_id := uuid, agent_id := agent, key := k, content := content,
                   category := cat.toStr, session_id := sid, embedding := none,
                   created_at := now, updated_at := now, access_count := 0 }]) ∧
    (∀ r ∈ db, r.key = k → r.agent_id = agent →
        { r with content := content, category := cat.toStr, session_id := sid,
                 updated_at := now } ∈
          OracleMemory.store agent (.error err) uuid k content cat sid now db) := by
  have hupd : ∀ r : MemRow, OracleMemory.rowMatchesKey agent k r = true →
      (fun r => if OracleMemory.rowMatchesKey agent k r then
        { r with
            content := content, category := cat.toStr, session_id := sid,
            embedding :=
              match (match (Except.error err : Except String (List ℚ)) with
                     | .ok v => some v | .error _ => none) with
              | some v => some v
              | none => r.embedding,
            updated_at := now }
        else r) r =
      { r with content := content, category := cat.toStr, session_id := sid,
               updated_at := now } := by
    intro r hr
    simp [hr]
  refine ⟨?_, ?_, ?_⟩
  · by_cases hany : db.any (OracleMemory.rowMatchesKey agent k) = true
    · obtain ⟨r0, hr0, hm0⟩ := List.any_eq_true.mp hany
      rw [OracleMemory.store_matched agent _ uuid k content cat sid now db hany]
      obtain ⟨r1, hr1⟩ : ∃ r1 : MemRow,
          r1 = { r0 with
            content := content, category := cat.toStr,
            session_id := sid, updated_at := now } := ⟨_, rfl⟩
      refine ⟨r1, ?_, ?_, ?_, by rw [hr1]⟩
      · rw [hr1]
        exact hupd r0 hm0 ▸ List.mem_map_of_mem _ hr0
      · have hb := (Bool.and_eq_true _ _).mp hm0
        rw [hr1]
        simpa using hb.1
      · have hb := (Bool.and_eq_true _ _).mp hm0
        rw [hr1]
        simpa using hb.2
    · have hany' : db.any (OracleMemory.rowMatchesKey agent k) = false :=
        Bool.eq_false_iff.mpr hany
      rw [OracleMemory.store_fresh agent _ uuid k content cat sid now db hany']
      obtain ⟨r1, hr1⟩ : ∃ r1 : MemRow,
          r1 = { memory_id := uuid, agent_id := agent, key := k, content := content,
                 category := cat.toStr, session_id := sid, embedding := none,
                 created_at := now, updated_at := now, access_count := 0 } := ⟨_, rfl⟩
      refine ⟨r1, ?_, by rw [hr1], by rw [hr1], by rw [hr1]⟩
      rw [hr1]
      exact List.mem_append_right _ (List.mem_singleton.mpr rfl)
  · intro hfresh
    have hany' : db.any (OracleMemory.rowMatchesKey agent k) = false := by
      rw [List.any_eq_false]
      intro r hr
      have := hfresh r hr
      simp only [OracleMemory.rowMatchesKey, Bool.and_eq_true, decide_eq_true_eq]
      tauto
    exact OracleMemory.store_fresh agent _ uuid k content cat sid now db hany'
  · intro r hr hk ha
    have hm : OracleMemory.rowMatchesKey agent k r = true := by
      simp [OracleMemory.rowMatchesKey, hk, ha]
    have hany : db.any (OracleMemory.rowMatchesKey agent k) = true :=
      List.any_eq_true.mpr ⟨r, hr, hm⟩
    rw [OracleMemory.store_matched agent _ uuid k content cat sid now db hany]
    exact hupd r hm ▸ List.mem_map_of_mem _ hr

/-- C6 witness: the theorem applied to a one-row state (the row for a
different key is untouched; the fresh key is inserted without a vector). -/
theorem c6_witness :
    (∃ r ∈ OracleMemory.store "agent" (.error "down") "u9" "k2" "body" .core none 5 [rowA],
        r.key = "k2" ∧ r.agent_id = "agent" ∧ r.content = "body") ∧
    ((∀ r ∈ [rowA], ¬ (r.key = "k2" ∧ r.agent_id = "agent")) →
        OracleMemory.store "agent" (.error "down") "u9" "k2" "body" .core none 5 [rowA] =
          [rowA] ++ [{ memory_id := "u9", agent_id := "agent", key := "k2", content := "body",
                       category := MemoryCategory.core.toStr, session_id := none,
                       embedding := none, created_at := 5, updated_at := 5,
                       access_count := 0 }]) ∧
    (∀ r ∈ [rowA], r.key = "k2" → r.agent_id = "agent" →
        { r with content := "body", category := MemoryCategory.core.toStr,
                 session_id := none, updated_at := (5 : Int) } ∈
          OracleMemory.store "agent" (.error "down") "u9" "k2" "body" .core none 5 [rowA]) :=
  c6_store_embed_failure_still_writes [rowA] "agent" "down" "u9" "k2" "body" .core none 5

/-- C9 counterexample: storing an entry whose category is
`Custom("Notes")` and reading it back through `get` yields
`Custom("notes")` — `parse_category` ASCII-lowercases the stored label, so
a label that is not already lowercase does not round-trip unchanged. -/
theorem c9_counterexample :
    ((OracleMemory.get "agent" "k"
        (OracleMemory.store "agent" (.error "down") "u1" "k" "c"
          (.custom "Notes") none 0 [])).1.map MemoryEntry.category =
      some (MemoryCategory.custom "notes")) ∧
    MemoryCategory.custom "notes" ≠ MemoryCategory.custom "Notes" := by
  decide

/-- C9 (amended): a custom label that is already ASCII-lowercase and is
not one of the built-in names `core`, `daily`, `conversation` round-trips
losslessly through store and read-back; in general the label read back is
the ASCII-lowercased label (and a case variant of a built-in name is
coerced to the built-in category, as `Custom("CORE")` ↦ `Core`). -/
theorem c9_custom_roundtrip_lowercase (label agent k content uuid : String)
    (emb : Except String (List ℚ)) (sid : Option String) (now : Int)
    (hlower : asciiLower label = label)
    (h1 : label ≠ "core") (h2 : label ≠ "daily") (h3 : label ≠ "conversation") :
    ((OracleMemory.get agent k
        (OracleMemory.store agent emb uuid k content (.custom label) sid now [])).1.map
      MemoryEntry.category = some (MemoryCategory.custom label)) ∧
    (∀ s, asciiLower s ≠ "core" → asciiLower s ≠ "daily" →
        asciiLower s ≠ "conversation" →
        parse_category (MemoryCategory.toStr (.custom s)) =
          MemoryCategory.custom (asciiLower s)) := by
  constructor
  · have h0 := OracleMemory.store_fresh agent emb uuid k content (.custom label)
      sid now [] rfl
    rw [h0]
    simp [OracleMemory.get, OracleMemory.rowMatchesKey, rowToEntry, parse_category,
      MemoryCategory.toStr, hlower, h1, h2, h3]
  · intro s hs1 hs2 hs3
    simp [parse_category, MemoryCategory.toStr, hs1, hs2, hs3]

/-- C9 witness: the amended theorem applied to the lowercase custom label
used by the repository's own `parse_category` unit test. -/
theorem c9_witness :
    ((OracleMemory.get "agent" "k"
        (OracleMemory.store "agent" (.error "down") "u1" "k" "c"
          (.custom "project_notes") none 0 [])).1.map MemoryEntry.category =
      some (MemoryCategory.custom "project_notes")) ∧
    (∀ s, asciiLower s ≠ "core" → asciiLower s ≠ "daily" →
        asciiLower s ≠ "conversation" →
        parse_category (MemoryCategory.toStr (.custom s)) =
          MemoryCategory.custom (asciiLower s)) :=
  c9_custom_roundtrip_lowercase "project_notes" "agent" "k" "c" "u1"
    (.error "down") none 0 (by decide) (by decide) (by decide) (by decide)

/-- C4: every entry returned by the vector path of `recall` carries
`score = some (max (1 − distance(entry_vec, query_vec)) 0)` computed from
its source row, and that score is at least the fixed threshold `0.3` —
rows whose similarity falls below the threshold are never included.  When
the vector path is non-empty, its result is exactly what `recall`
returns. -/
theorem c4_vector_path_scores (vdist : List ℚ → List ℚ → ℚ) (agent : String)
    (qvec : List ℚ) (limit : Nat) (sid : Option String) (db : List MemRow) :
    (∀ e ∈ OracleMemory.vectorSearch vdist agent qvec limit sid db,
        (∃ r ∈ db, e.score = some (OracleMemory.similarity_from_distance
            (vdist (r.embedding.getD []) qvec))) ∧
        (∀ s, e.score = some s → OracleMemory.MIN_SIMILARITY ≤ s)) ∧
    (∀ query, OracleMemory.vectorSearch vdist agent qvec limit sid db ≠ [] →
        OracleMemory.«recall» vdist (.ok qvec) agent query limit sid db =
          OracleMemory.vectorSearch vdist agent qvec limit sid db) := by
  constructor
  · intro e he
    obtain ⟨r, hrdb, hge, hee⟩ := vectorSearch_mem he
    constructor
    · exact ⟨r, hrdb, by rw [hee]⟩
    · intro s hs
      rw [hee] at hs
      have hs' : some (OracleMemory.similarity_from_distance
          (vdist (r.embedding.getD []) qvec)) = some s := hs
      rw [← Option.some.inj hs']
      exact not_lt.mp hge
  · intro query hne
    have hfalse : ¬ ((OracleMemory.vectorSearch vdist agent qvec limit sid db).isEmpty
        = true) := by
      rw [List.isEmpty_iff]
      exact hne
    simp [OracleMemory.«recall», hfalse]

/-- C4 witness: the theorem applied to a one-row store whose row carries a
vector, with an external distance of 1/2 (similarity 1/2 ≥ 0.3). -/
theorem c4_witness :
    (∃ r ∈ [rowEmb], entryEmb.score = some (OracleMemory.similarity_from_distance
        (vdistHalf (r.embedding.getD []) [1]))) ∧
    (∀ s, entryEmb.score = some s → OracleMemory.MIN_SIMILARITY ≤ s) :=
  (c4_vector_path_scores vdistHalf "agent" [1] 1 none [rowEmb]).1 entryEmb (by
    have hcond : ¬ OracleMemory.similarity_from_distance
        (vdistHalf (rowEmb.embedding.getD []) [1]) < OracleMemory.MIN_SIMILARITY := by
      norm_num [OracleMemory.similarity_from_distance, OracleMemory.MIN_SIMILARITY,
        vdistHalf, max_def]
    rw [show OracleMemory.vectorSearch vdistHalf "agent" [1] 1 none [rowEmb] =
        List.filterMap (fun r =>
          if OracleMemory.similarity_from_distance (vdistHalf (r.embedding.getD []) [1]) <
              OracleMemory.MIN_SIMILARITY then none
          else some { rowToEntry r with
            score := some (OracleMemory.similarity_from_distance
              (vdistHalf (r.embedding.getD []) [1])) }) [rowEmb] from rfl,
      List.mem_filterMap]
    refine ⟨rowEmb, List.mem_singleton.mpr rfl, ?_⟩
    show (if OracleMemory.similarity_from_distance
          (vdistHalf (rowEmb.embedding.getD []) [1]) < OracleMemory.MIN_SIMILARITY
        then none
        else some { rowToEntry rowEmb with
          score := some (OracleMemory.similarity_from_distance
            (vdistHalf (rowEmb.embedding.getD []) [1])) }) = some entryEmb
    rw [if_neg hcond]
    rfl)

/-- C5 counterexample: the claim says every entry the keyword fallback
returns contains the query as a case-insensitive substring of its content
or its key.  The code passes the raw query into a SQL `LIKE` pattern, so
`_` acts as a single-character wildcard: with one stored row of content
`"abc"` and a failing embedder, recall for the query `"a_c"` returns that
row even though `"a_c"` is not a substring of `"abc"` or of the key
`"k"`. -/
theorem c5_counterexample :
    ((OracleMemory.«recall» vdistZero (.error "down") "agent" "a_c" 10 none
        [rowAbc]).map MemoryEntry.content = ["abc"]) ∧
    ¬ (OracleMemory.lowerChars "a_c" <:+: OracleMemory.lowerChars "abc") ∧
    ¬ (OracleMemory.lowerChars "a_c" <:+: OracleMemory.lowerChars "k") := by
  refine ⟨rfl, by decide, by decide⟩

/-- C5 (amended): the keyword fallback runs exactly when the vector path
produced zero results (including when no query embedding was available);
every entry it returns originates from a row of this agent whose
lowercased content or key LIKE-matches the lowercased pattern `%query%` —
`%` and `_` inside the query act as SQL wildcards — satisfies the
session-id filter when one is given, and carries score exactly 0.5; and
whenever the query contains no LIKE metacharacter, every returned entry
contains the query as a case-insensitive substring of its content or its
key. -/
theorem c5_keyword_fallback (vdist : List ℚ → List ℚ → ℚ)
    (embedOutcome : Except String (List ℚ)) (agent query : String)
    (limit : Nat) (sid : Option String) (db : List MemRow) :
    ((match embedOutcome with
      | .ok qvec => OracleMemory.vectorSearch vdist agent qvec limit sid db
      | .error _ => []) = [] →
      OracleMemory.«recall» vdist embedOutcome agent query limit sid db =
        OracleMemory.keywordSearch agent query limit sid db) ∧
    (∀ qvec, embedOutcome = .ok qvec →
      OracleMemory.vectorSearch vdist agent qvec limit sid db ≠ [] →
      OracleMemory.«recall» vdist embedOutcome agent query limit sid db =
        OracleMemory.vectorSearch vdist agent qvec limit sid db) ∧
    (∀ e ∈ OracleMemory.keywordSearch agent query limit sid db,
        e.score = some (1 / 2) ∧
        ∃ r ∈ db, r.agent_id = agent ∧ e.content = r.content ∧ e.key = r.key ∧
          OracleMemory.keywordMatch query r = true ∧
          (∀ s, sid = some s → r.session_id = some s)) ∧
    ((∀ ch ∈ query.data, ch ≠ '%' ∧ ch ≠ '_') →
      ∀ e ∈ OracleMemory.keywordSearch agent query limit sid db,
        OracleMemory.lowerChars query <:+: OracleMemory.lowerChars e.content ∨
        OracleMemory.lowerChars query <:+: OracleMemory.lowerChars e.key) := by
  refine ⟨?_, ?_, ?_, ?_⟩
  · intro hvec
    simp [OracleMemory.«recall», hvec]
  · intro qvec heq hne
    subst heq
    have hfalse : ¬ ((OracleMemory.vectorSearch vdist agent qvec limit sid db).isEmpty
        = true) := by
      rw [List.isEmpty_iff]
      exact hne
    simp [OracleMemory.«recall», hfalse]
  · intro e he
    obtain ⟨r, hrdb, hee, hagent, hkm, hsm⟩ := keywordSearch_mem he
    refine ⟨by rw [hee], r, hrdb, hagent, by rw [hee]; rfl, by rw [hee]; rfl,
      hkm, ?_⟩
    intro s hs
    rw [hs] at hsm
    simpa [OracleMemory.sessionMatches] using hsm
  · intro hq e he
    obtain ⟨r, hrdb, hee, hagent, hkm, hsm⟩ := keywordSearch_mem he
    have hmf : ∀ c ∈ OracleMemory.lowerChars query, c ≠ '%' ∧ c ≠ '_' := by
      intro c hc
      rw [OracleMemory.lowerChars] at hc
      obtain ⟨c0, hc0, hc1⟩ := List.mem_map.mp hc
      rw [← hc1]
      exact asciiLowerChar_ne_meta c0 (hq c0 hc0).1 (hq c0 hc0).2
    simp only [OracleMemory.keywordMatch] at hkm
    rw [lowerChars_percent_pattern] at hkm
    rcases Bool.or_eq_true_iff.mp hkm with h1 | h1
    · left
      rw [hee]
      exact likeMatches_infix _ _ hmf h1
    · right
      rw [hee]
      exact likeMatches_infix _ _ hmf h1

/-- C5 witness: the theorem applied to a concrete failing-embedder recall
whose keyword fallback matches the single stored row. -/
theorem c5_witness :
    (OracleMemory.«recall» vdistZero (.error "down") "agent" "content" 10 none [rowA] =
      OracleMemory.keywordSearch "agent" "content" 10 none [rowA]) ∧
    (entryKw.score = some (1 / 2) ∧
      ∃ r ∈ [rowA], r.agent_id = "agent" ∧ entryKw.content = r.content ∧
        entryKw.key = r.key ∧ OracleMemory.keywordMatch "content" r = true ∧
        (∀ s, (none : Option String) = some s → r.session_id = some s)) ∧
    (OracleMemory.lowerChars "content" <:+: OracleMemory.lowerChars entryKw.content ∨
      OracleMemory.lowerChars "content" <:+: OracleMemory.lowerChars entryKw.key) := by
  have hmemKw : entryKw ∈ OracleMemory.keywordSearch "agent" "content" 10 none [rowA] :=
    List.mem_singleton.mpr rfl
  exact ⟨(c5_keyword_fallback vdistZero (.error "down") "agent" "content"
            10 none [rowA]).1 rfl,
         (c5_keyword_fallback vdistZero (.error "down") "agent" "content"
            10 none [rowA]).2.2.1 entryKw hmemKw,
         (c5_keyword_fallback vdistZero (.error "down") "agent" "content"
            10 none [rowA]).2.2.2 (by decide) entryKw hmemKw⟩

end ZeroOraClaw
